import Mathlib

/-!
Verification of the packed-DNA library (`dna` crate): a memory-efficient
representation of nucleotide sequences packing each nucleotide into 2 bits,
four per 8-bit storage unit.

The definitions below are a shallow embedding of `src/packed_dna/dna/src/lib.rs`:
  * `Nuc`                    — the nucleotide enum (`Nuc` in the source);
  * `PackedDna`              — the packed struct (`nucs_vec: Vec<u8>`, `length: usize`),
                               with `u8` values modelled as `Nat` reduced mod 256
                               wherever the machine arithmetic wraps;
  * `PackedDna.fromStr`      — `<PackedDna as FromStr>::from_str` (strings as `List Char`);
  * `PackedDna.fromIter`     — `<PackedDna as FromIterator<Nuc>>::from_iter`
                               (iterators as `List Nuc`);
  * `PackedDna.get`          — `PackedDna::get`;
  * `PackedDna.len`, `PackedDna.is_empty`, `PackedDna.vec` — the introspection methods;
  * `Nuc.tryFrom`            — `<Nuc as TryFrom<char>>::try_from`;
  * `Nuc.fromStr`            — `<Nuc as FromStr>::from_str`.
Errors (`ParsePackedNucsError<char>`, `GetPackedNucsError(usize)`, `ParseNucError`)
are modelled with `Except`, carrying exactly the payload the Rust error carries.
-/

set_option autoImplicit false

/-- The nucleotide enumeration (`Nuc` in the source): Adenine, Cytosine,
Guanine, Thymine. -/
inductive Nuc : Type
  /-- Adenine -/
  | A : Nuc
  /-- Cytosine -/
  | C : Nuc
  /-- Guanine -/
  | G : Nuc
  /-- Thymine -/
  | T : Nuc
deriving DecidableEq, Repr

/-- The packed DNA struct: a vector of 8-bit storage units (`nucs_vec: Vec<u8>`,
each element kept `< 256`) and the logical length (`length: usize`). -/
structure PackedDna : Type where
  nucs_vec : List Nat
  length : Nat
deriving DecidableEq, Repr

/-- `char::to_ascii_uppercase` from Rust: maps a lowercase ASCII letter
(code 97–122) to its uppercase counterpart (code minus 32) and leaves every
other character unchanged. `str::to_ascii_uppercase` is its pointwise map. -/
def toAsciiUpper (c : Char) : Char :=
  if 97 ≤ c.toNat ∧ c.toNat ≤ 122 then Char.ofNat (c.toNat - 32) else c

/-- The mutable loop state shared by both construction loops in the source:
the vector built so far (`packed_nucs`), the running count (`len`) and the
8-bit accumulator (`nucs_unit`). -/
structure PackState : Type where
  packed_nucs : List Nat
  len : Nat
  nucs_unit : Nat
deriving DecidableEq, Repr

/-- The flush step at the top of both construction loops:
`if len % 4 == 0 && len != 0 { packed_nucs.push(nucs_unit); nucs_unit = 0; }`. -/
def flushCheck (st : PackState) : PackState :=
  if st.len % 4 = 0 ∧ st.len ≠ 0 then
    { packed_nucs := st.packed_nucs ++ [st.nucs_unit], len := st.len, nucs_unit := 0 }
  else st

/-- The loop body of `from_str` applied to the remaining (already uppercased)
characters: flush check, then the four-way match on the character
(`nucs_unit <<= 2` wraps mod 256 on `u8`; the subsequent `+ k`, `k ≤ 3`,
cannot wrap), `len += 1`, or early return of `ParsePackedNucsError(nuc)`
on any other character. -/
def fromStrLoop (l : List Char) (st : PackState) : Except Char PackState :=
  match l with
  | [] => .ok st
  | c :: rest =>
    let st1 := flushCheck st
    if c = 'A' then
      fromStrLoop rest { st1 with len := st1.len + 1, nucs_unit := (st1.nucs_unit * 4) % 256 }
    else if c = 'C' then
      fromStrLoop rest { st1 with len := st1.len + 1, nucs_unit := (st1.nucs_unit * 4) % 256 + 1 }
    else if c = 'G' then
      fromStrLoop rest { st1 with len := st1.len + 1, nucs_unit := (st1.nucs_unit * 4) % 256 + 2 }
    else if c = 'T' then
      fromStrLoop rest { st1 with len := st1.len + 1, nucs_unit := (st1.nucs_unit * 4) % 256 + 3 }
    else .error c

/-- The initial loop state: empty vector, `len = 0`, `nucs_unit = 0`. -/
def initState : PackState := ⟨[], 0, 0⟩

/-- `<PackedDna as FromStr>::from_str`: uppercase the input, run the packing
loop, push the final (possibly partial) accumulator when `len != 0`, and
return the struct; fails with the offending (uppercased) character. -/
def PackedDna.fromStr (s : List Char) : Except Char PackedDna :=
  match fromStrLoop (s.map toAsciiUpper) initState with
  | .error c => .error c
  | .ok st =>
    if st.len ≠ 0 then .ok ⟨st.packed_nucs ++ [st.nucs_unit], st.len⟩
    else .ok ⟨st.packed_nucs, st.len⟩

/-- One iteration of the `from_iter` loop: flush check, then the four-way
match on the `Nuc` (same wrapping-shift arithmetic as `from_str`),
`len += 1`. -/
def iterStep (st : PackState) (n : Nuc) : PackState :=
  let st1 := flushCheck st
  match n with
  | .A => { st1 with len := st1.len + 1, nucs_unit := (st1.nucs_unit * 4) % 256 }
  | .C => { st1 with len := st1.len + 1, nucs_unit := (st1.nucs_unit * 4) % 256 + 1 }
  | .G => { st1 with len := st1.len + 1, nucs_unit := (st1.nucs_unit * 4) % 256 + 2 }
  | .T => { st1 with len := st1.len + 1, nucs_unit := (st1.nucs_unit * 4) % 256 + 3 }

/-- The loop of `from_iter` over the remaining `Nuc`s. -/
def fromIterLoop (l : List Nuc) (st : PackState) : PackState :=
  match l with
  | [] => st
  | n :: rest => fromIterLoop rest (iterStep st n)

/-- `<PackedDna as FromIterator<Nuc>>::from_iter`: run the packing loop over
the `Nuc`s, push the final accumulator when `len != 0`, return the struct.
Infallible: the return type carries no error. -/
def PackedDna.fromIter (l : List Nuc) : PackedDna :=
  let st := fromIterLoop l initState
  if st.len ≠ 0 then ⟨st.packed_nucs ++ [st.nucs_unit], st.len⟩
  else ⟨st.packed_nucs, st.len⟩

/-- `PackedDna::len`: the logical length. -/
def PackedDna.len (d : PackedDna) : Nat := d.length

/-- `PackedDna::is_empty` exactly as written in the source: `self.length != 0`. -/
def PackedDna.is_empty (d : PackedDna) : Bool := d.length != 0

/-- `PackedDna::vec`: copies the storage-unit vector element by element into a
fresh vector and returns it. -/
def PackedDna.vec (d : PackedDna) : List Nat :=
  d.nucs_vec.foldl (fun vec_new i => vec_new ++ [i]) []

/-- `PackedDna::get`: bounds check (`Err(GetPackedNucsError(idx))` when
`idx >= length`), then read storage unit `idx / 4` and extract the 2-bit
field — shifting by `2 * (length - idx - 1)` inside the trailing
partial-or-exact unit (`idx >= (length / 4) * 4`), by `2 * (3 - idx % 4)`
inside a full interior unit — mask with `& 3` (`% 4`), and map the code back
to a `Nuc` (the catch-all decode-failure arm is unreachable after `& 3`).
The `u8` shifts lose no bits (shift amount is at most 6), so plain `Nat`
shift is the exact machine behavior; the Rust vector indexing
`self.nucs_vec[element_idx]` is modelled by `getD _ 0`, and the packing
invariant proved below shows the index is always in bounds for constructed
values. -/
def PackedDna.get (d : PackedDna) (idx : Nat) : Except Nat Nuc :=
  if idx ≥ d.length then .error idx
  else
    let max_full_unit := d.length / 4
    let element_idx := idx / 4
    let bit_idx := idx % 4
    let nuc0 := d.nucs_vec.getD element_idx 0
    let nuc :=
      if idx ≥ max_full_unit * 4 then
        (nuc0 >>> (2 * (d.length - idx - 1))) % 4
      else
        (nuc0 >>> (2 * (3 - bit_idx))) % 4
    match nuc with
    | 0 => .ok .A
    | 1 => .ok .C
    | 2 => .ok .G
    | 3 => .ok .T
    | _ => .error idx

/-- `<Nuc as TryFrom<char>>::try_from`: uppercase the character, match it
against the four letters, otherwise fail with `ParseNucError(value)` carrying
the character as originally written. -/
def Nuc.tryFrom (c : Char) : Except Char Nuc :=
  let u := toAsciiUpper c
  if u = 'A' then .ok .A
  else if u = 'C' then .ok .C
  else if u = 'G' then .ok .G
  else if u = 'T' then .ok .T
  else .error c

/-- `<Nuc as FromStr>::from_str`: uppercase the whole string, match it against
the four one-letter strings, otherwise fail with `ParseNucError(upper)`
carrying the uppercased string. -/
def Nuc.fromStr (s : List Char) : Except (List Char) Nuc :=
  let upper := s.map toAsciiUpper
  if upper = ['A'] then .ok .A
  else if upper = ['C'] then .ok .C
  else if upper = ['G'] then .ok .G
  else if upper = ['T'] then .ok .T
  else .error upper

/-- The character a `Nuc` prints as / parses from (the uppercase letter of the
variant); used to state the round-trip property. -/
def Nuc.toChar : Nuc → Char
  | .A => 'A'
  | .C => 'C'
  | .G => 'G'
  | .T => 'T'

/-- The 2-bit code of each nucleotide fixed by the construction arms:
A=0b00, C=0b01, G=0b10, T=0b11. -/
def nucCode : Nuc → Nat
  | .A => 0
  | .C => 1
  | .G => 2
  | .T => 3

/-- Character-to-`Nuc` conversion of a whole string, element by element via
`Nuc.tryFrom`, failing at the first character that does not convert — "the
Nucs obtained by converting each character" of the refinement claim. -/
def parseNucs : List Char → Except Char (List Nuc)
  | [] => .ok []
  | c :: rest =>
    match Nuc.tryFrom c with
    | .error e => .error e
    | .ok n =>
      match parseNucs rest with
      | .error e => .error e
      | .ok L => .ok (n :: L)

/-- The value of a storage unit holding the codes of the group `g` of
nucleotides, packed by repeated shift-left-2-and-add in arrival order. -/
def packUnit (g : List Nuc) : Nat :=
  g.foldl (fun u n => u * 4 + nucCode n) 0

/-- Decoding a `PackedDna` back to text: read every index in `[0, len)` with
`get` and map each returned `Nuc` to its character (out-of-range / decode
errors, which cannot occur below `len`, are rendered as a placeholder). -/
def decodeDna (d : PackedDna) : List Char :=
  (List.range d.len).map fun i =>
    match d.get i with
    | .ok n => n.toChar
    | .error _ => '?'

/-- The eight characters accepted by the parsers: the four nucleotide letters
in either case. -/
def validChars : List Char := ['A', 'C', 'G', 'T', 'a', 'c', 'g', 't']

/-! ### Character-level lemmas about ASCII uppercasing -/

/-- Characters with equal code points are equal. -/
lemma char_eq_of_toNat_eq {c d : Char} (h : c.toNat = d.toNat) : c = d := by
  apply Char.ext
  apply UInt32.ext
  exact h

/-- `Char.ofNat` round-trips through `toNat` on small (valid) code points. -/
lemma toNat_ofNat_lt {n : Nat} (h : n < 55296) : (Char.ofNat n).toNat = n := by
  have hv : n.isValidChar := Or.inl h
  simp [Char.ofNat, hv, Char.toNat, Char.ofNatAux, UInt32.toNat, UInt32.ofNatCore]

/-- The code point of `toAsciiUpper c`: decreased by 32 on a lowercase ASCII
letter, unchanged otherwise. -/
lemma toAsciiUpper_toNat (c : Char) :
    (toAsciiUpper c).toNat =
      if 97 ≤ c.toNat ∧ c.toNat ≤ 122 then c.toNat - 32 else c.toNat := by
  unfold toAsciiUpper
  by_cases h : 97 ≤ c.toNat ∧ c.toNat ≤ 122
  · rw [if_pos h, if_pos h, toNat_ofNat_lt (by omega)]
  · rw [if_neg h, if_neg h]

/-- `toAsciiUpper` fixes characters that are not lowercase ASCII letters. -/
lemma toAsciiUpper_eq_self {c : Char} (h : ¬(97 ≤ c.toNat ∧ c.toNat ≤ 122)) :
    toAsciiUpper c = c := by
  unfold toAsciiUpper
  rw [if_neg h]

/-- The output of `toAsciiUpper` is never a lowercase ASCII letter. -/
lemma toAsciiUpper_not_lower (c : Char) :
    ¬(97 ≤ (toAsciiUpper c).toNat ∧ (toAsciiUpper c).toNat ≤ 122) := by
  rw [toAsciiUpper_toNat]
  by_cases h : 97 ≤ c.toNat ∧ c.toNat ≤ 122
  · rw [if_pos h]; omega
  · rw [if_neg h]; omega

/-- ASCII uppercasing is idempotent. -/
lemma toAsciiUpper_idem (c : Char) : toAsciiUpper (toAsciiUpper c) = toAsciiUpper c :=
  toAsciiUpper_eq_self (toAsciiUpper_not_lower c)

/-- `toAsciiUpper c` equals an uppercase ASCII letter `u` exactly when `c` is
`u` itself or its lowercase counterpart `l`. -/
lemma toAsciiUpper_eq_letter_iff (c u l : Char) (h65 : 65 ≤ u.toNat) (h90 : u.toNat ≤ 90)
    (hl : l.toNat = u.toNat + 32) : toAsciiUpper c = u ↔ c = u ∨ c = l := by
  constructor
  · intro h
    by_cases hc : 97 ≤ c.toNat ∧ c.toNat ≤ 122
    · right
      have h2 : (toAsciiUpper c).toNat = c.toNat - 32 := by
        rw [toAsciiUpper_toNat, if_pos hc]
      rw [h] at h2
      exact char_eq_of_toNat_eq (by omega)
    · left
      rw [toAsciiUpper_eq_self hc] at h
      exact h
  · rintro (rfl | rfl)
    · exact toAsciiUpper_eq_self (by omega)
    · apply char_eq_of_toNat_eq
      rw [toAsciiUpper_toNat, if_pos (by omega)]
      omega

/-! ### Basic facts about the embedded methods -/

/-- The element-by-element copy in `PackedDna::vec` returns exactly the
backing vector. -/
lemma vec_eq_nucs_vec (d : PackedDna) : d.vec = d.nucs_vec := by
  suffices h : ∀ (l acc : List Nat), l.foldl (fun vec_new i => vec_new ++ [i]) acc = acc ++ l by
    simpa [PackedDna.vec] using h d.nucs_vec []
  intro l
  induction l with
  | nil => simp
  | cons x xs ih => intro acc; simp [List.foldl_cons, ih]

/-- The `from_iter` loop processes a concatenation by processing the two parts
in order. -/
lemma fromIterLoop_append (l1 l2 : List Nuc) (st : PackState) :
    fromIterLoop (l1 ++ l2) st = fromIterLoop l2 (fromIterLoop l1 st) := by
  induction l1 generalizing st with
  | nil => rfl
  | cons n rest ih => simp [fromIterLoop, ih]

/-- The four arms of the `from_iter` loop body, written uniformly via the
2-bit code of the nucleotide. -/
lemma iterStep_eq (st : PackState) (n : Nuc) :
    iterStep st n =
      { (flushCheck st) with
        len := (flushCheck st).len + 1,
        nucs_unit := ((flushCheck st).nucs_unit * 4) % 256 + nucCode n } := by
  cases n <;> simp [iterStep, nucCode]

/-- `packUnit` on a group extended on the right: shift left two bits and add
the new code. -/
lemma packUnit_append_one (g : List Nuc) (n : Nuc) :
    packUnit (g ++ [n]) = packUnit g * 4 + nucCode n := by
  unfold packUnit
  rw [List.foldl_append]
  rfl

/-- Every 2-bit code is below 4. -/
lemma nucCode_lt_four (n : Nuc) : nucCode n < 4 := by cases n <;> decide

/-- A group of `k` nucleotides packs into a value below `4 ^ k`. -/
lemma packUnit_lt (g : List Nuc) : packUnit g < 4 ^ g.length := by
  induction g using List.reverseRecOn with
  | nil => decide
  | append_singleton g n ih =>
    rw [packUnit_append_one]
    have hc := nucCode_lt_four n
    have hp : 4 ^ (g ++ [n]).length = 4 ^ g.length * 4 := by
      rw [List.length_append, List.length_singleton, pow_succ]
    omega

/-! ### The packing invariant of the construction loops -/

/-- Indexing into the 4-element window of a dropped prefix. -/
lemma getD_drop_take (L : List Nuc) (n j : Nat) (hj : j < 4) :
    ((L.drop n).take 4).getD j Nuc.A = L.getD (n + j) Nuc.A := by
  rw [List.getD_eq_getElem?_getD, List.getD_eq_getElem?_getD,
    List.getElem?_take_of_lt hj, List.getElem?_drop]

/-- `packUnit` of a singleton group is the code of its nucleotide. -/
lemma packUnit_singleton (n : Nuc) : packUnit [n] = nucCode n := by
  simp [packUnit]

/-- State of the `from_iter` packing loop after processing the whole list `L`
from the initial state: the running count is `L.length`; the flushed vector
holds the `(L.length - 1) / 4` full leading 4-groups of `L`, each packed by
`packUnit`; and the accumulator holds the packed trailing group (of size 1–4
when `L` is nonempty). -/
lemma fromIterLoop_spec (L : List Nuc) :
    (fromIterLoop L initState).len = L.length ∧
    (fromIterLoop L initState).packed_nucs.length = (L.length - 1) / 4 ∧
    (∀ k, k < (L.length - 1) / 4 →
      (fromIterLoop L initState).packed_nucs.getD k 0 = packUnit ((L.drop (4 * k)).take 4)) ∧
    (fromIterLoop L initState).nucs_unit = packUnit (L.drop (4 * ((L.length - 1) / 4))) := by
  induction L using List.reverseRecOn with
  | nil => simp [fromIterLoop, initState, packUnit]
  | append_singleton L n ih =>
    obtain ⟨hlen, hplen, hdig, hunit⟩ := ih
    rw [fromIterLoop_append]
    have hstep : fromIterLoop [n] (fromIterLoop L initState)
        = iterStep (fromIterLoop L initState) n := rfl
    rw [hstep]
    by_cases hc : L.length % 4 = 0 ∧ L.length ≠ 0
    · -- the flush fires: the accumulator held a full 4-group
      have hf : flushCheck (fromIterLoop L initState) =
          ⟨(fromIterLoop L initState).packed_nucs ++ [(fromIterLoop L initState).nucs_unit],
            (fromIterLoop L initState).len, 0⟩ := by
        rw [flushCheck, if_pos (by rw [hlen]; exact hc)]
      have hnew : iterStep (fromIterLoop L initState) n =
          ⟨(fromIterLoop L initState).packed_nucs ++ [(fromIterLoop L initState).nucs_unit],
            (fromIterLoop L initState).len + 1, nucCode n⟩ := by
        rw [iterStep_eq, hf]
        simp
      rw [hnew]
      have h4 : 4 * ((L.length - 1) / 4) = L.length - 4 := by omega
      rw [h4] at hunit
      refine ⟨by simp [hlen], ?_, ?_, ?_⟩
      · simp only [List.length_append, List.length_singleton, hplen, hlen]
        omega
      · intro k hk
        simp only [List.length_append, List.length_singleton] at hk
        by_cases hklt : k < (L.length - 1) / 4
        · simp only []
          rw [List.getD_append _ _ _ _ (by rw [hplen]; exact hklt), hdig k hklt,
            List.drop_append_of_le_length (by omega),
            List.take_append_of_le_length (by rw [List.length_drop]; omega)]
        · -- k is exactly the index of the freshly flushed unit
          have hkeq : k = (L.length - 1) / 4 := by omega
          simp only []
          rw [List.getD_append_right _ _ _ _ (by rw [hplen]; omega), hplen, hkeq, h4]
          simp only [Nat.sub_self, List.getD_cons_zero]
          rw [hunit, List.drop_append_of_le_length (by omega),
            List.take_append_of_le_length (by rw [List.length_drop]; omega),
            List.take_of_length_le (by rw [List.length_drop]; omega)]
      · have hq : 4 * (((L ++ [n]).length - 1) / 4) = L.length := by
          simp only [List.length_append, List.length_singleton]
          omega
        simp only [hq]
        rw [List.drop_append_of_le_length (le_refl _), List.drop_length]
        simp [packUnit, nucCode]
    · -- no flush
      have hf : flushCheck (fromIterLoop L initState) = fromIterLoop L initState := by
        rw [flushCheck, if_neg (by rw [hlen]; exact hc)]
      have hnew : iterStep (fromIterLoop L initState) n =
          ⟨(fromIterLoop L initState).packed_nucs, (fromIterLoop L initState).len + 1,
            ((fromIterLoop L initState).nucs_unit * 4) % 256 + nucCode n⟩ := by
        rw [iterStep_eq, hf]
      rw [hnew]
      by_cases h0 : L.length = 0
      · -- L is empty: first element of the sequence
        have hL : L = [] := List.length_eq_zero.mp h0
        subst hL
        simp [fromIterLoop, initState, packUnit, nucCode]
      · -- mid-group step: L.length % 4 ≠ 0
        have hr : L.length % 4 ≠ 0 := fun h => hc ⟨h, h0⟩
        have e1 : ((L ++ [n]).length - 1) / 4 = (L.length - 1) / 4 := by
          simp only [List.length_append, List.length_singleton]
          omega
        have e2 : 4 * ((L.length - 1) / 4) ≤ L.length := by omega
        have e3 : (L.drop (4 * ((L.length - 1) / 4))).length ≤ 3 := by
          rw [List.length_drop]; omega
        refine ⟨by simp [hlen], by simp only [e1]; rw [hplen], ?_, ?_⟩
        · intro k hk
          rw [e1] at hk
          simp only []
          rw [hdig k hk,
            List.drop_append_of_le_length (by omega),
            List.take_append_of_le_length (by rw [List.length_drop]; omega)]
        · simp only [e1]
          rw [List.drop_append_of_le_length e2, packUnit_append_one, hunit]
          have hb : packUnit (L.drop (4 * ((L.length - 1) / 4))) * 4 < 256 := by
            have h1 := packUnit_lt (L.drop (4 * ((L.length - 1) / 4)))
            have h2 : 4 ^ (L.drop (4 * ((L.length - 1) / 4))).length ≤ 4 ^ 3 :=
              Nat.pow_le_pow_right (by omega) e3
            omega
          rw [Nat.mod_eq_of_lt hb]

/-- Characterization of a constructed `PackedDna`: `from_iter L` has logical
length `L.length`, exactly `⌈L.length / 4⌉` storage units, and unit `k` packs
the `k`-th 4-group of `L` (the last group possibly shorter). -/
lemma fromIter_spec (L : List Nuc) :
    (PackedDna.fromIter L).length = L.length ∧
    (PackedDna.fromIter L).nucs_vec.length = (L.length + 3) / 4 ∧
    ∀ k, k < (L.length + 3) / 4 →
      (PackedDna.fromIter L).nucs_vec.getD k 0 = packUnit ((L.drop (4 * k)).take 4) := by
  obtain ⟨hlen, hplen, hdig, hunit⟩ := fromIterLoop_spec L
  by_cases h0 : L.length = 0
  · have hL : L = [] := List.length_eq_zero.mp h0
    subst hL
    simp [PackedDna.fromIter, fromIterLoop, initState]
  · have hne : (fromIterLoop L initState).len ≠ 0 := by rw [hlen]; exact h0
    have hrep : PackedDna.fromIter L =
        ⟨(fromIterLoop L initState).packed_nucs ++ [(fromIterLoop L initState).nucs_unit],
          (fromIterLoop L initState).len⟩ := by
      unfold PackedDna.fromIter
      dsimp only
      rw [if_pos hne]
    rw [hrep]
    refine ⟨hlen, ?_, ?_⟩
    · simp only [List.length_append, List.length_singleton, hplen]
      omega
    · intro k hk
      by_cases hklt : k < (L.length - 1) / 4
      · simp only []
        rw [List.getD_append _ _ _ _ (by rw [hplen]; exact hklt)]
        exact hdig k hklt
      · have hkeq : k = (L.length - 1) / 4 := by omega
        simp only []
        rw [List.getD_append_right _ _ _ _ (by rw [hplen]; omega), hplen, hkeq]
        simp only [Nat.sub_self, List.getD_cons_zero]
        rw [hunit, List.take_of_length_le (by rw [List.length_drop]; omega)]

/-- Extracting position `j` from a fully packed 4-group: shift right by
`2 * (3 - j)` and mask the low two bits. -/
lemma digit_full (g : List Nuc) (hg : g.length = 4) (j : Nat) (hj : j < 4) :
    (packUnit g >>> (2 * (3 - j))) % 4 = nucCode (g.getD j Nuc.A) := by
  rcases g with _ | ⟨a, _ | ⟨b, _ | ⟨c, _ | ⟨d, _ | ⟨e, t⟩⟩⟩⟩⟩ <;>
    simp only [List.length_nil, List.length_cons] at hg <;> try omega
  have ha := nucCode_lt_four a
  have hb := nucCode_lt_four b
  have hc := nucCode_lt_four c
  have hd := nucCode_lt_four d
  have hpu : packUnit [a, b, c, d] =
      ((nucCode a * 4 + nucCode b) * 4 + nucCode c) * 4 + nucCode d := by
    simp [packUnit]
  rw [hpu, Nat.shiftRight_eq_div_pow]
  interval_cases j <;> simp only [List.getD_cons_zero, List.getD_cons_succ] <;> omega

/-- Extracting position `j` from the trailing partial group of size at most 3:
shift right by `2 * (size - j - 1)` and mask the low two bits. -/
lemma digit_last (g : List Nuc) (hg : g.length ≤ 3) (j : Nat) (hj : j < g.length) :
    (packUnit g >>> (2 * (g.length - j - 1))) % 4 = nucCode (g.getD j Nuc.A) := by
  rcases g with _ | ⟨a, _ | ⟨b, _ | ⟨c, _ | ⟨d, t⟩⟩⟩⟩ <;>
    simp only [List.length_nil, List.length_cons] at hg hj ⊢ <;> try omega
  · -- size 1
    have ha := nucCode_lt_four a
    have hpu : packUnit [a] = nucCode a := packUnit_singleton a
    rw [hpu, Nat.shiftRight_eq_div_pow]
    interval_cases j <;> simp only [List.getD_cons_zero] <;> omega
  · -- size 2
    have ha := nucCode_lt_four a
    have hb := nucCode_lt_four b
    have hpu : packUnit [a, b] = nucCode a * 4 + nucCode b := by simp [packUnit]
    rw [hpu, Nat.shiftRight_eq_div_pow]
    interval_cases j <;> simp only [List.getD_cons_zero, List.getD_cons_succ] <;> omega
  · -- size 3
    have ha := nucCode_lt_four a
    have hb := nucCode_lt_four b
    have hc := nucCode_lt_four c
    have hpu : packUnit [a, b, c] =
        (nucCode a * 4 + nucCode b) * 4 + nucCode c := by simp [packUnit]
    rw [hpu, Nat.shiftRight_eq_div_pow]
    interval_cases j <;> simp only [List.getD_cons_zero, List.getD_cons_succ] <;> omega

/-- `get` on a `PackedDna` built by `from_iter` returns the nucleotide stored
at that index, for every in-range index. -/
lemma get_fromIter (L : List Nuc) (i : Nat) (h : i < L.length) :
    (PackedDna.fromIter L).get i = .ok (L.getD i Nuc.A) := by
  obtain ⟨hlen, hvlen, hdig⟩ := fromIter_spec L
  unfold PackedDna.get
  rw [hlen]
  rw [if_neg (by omega)]
  dsimp only
  have hi4 : i / 4 < (L.length + 3) / 4 := by omega
  rw [hdig (i / 4) hi4]
  by_cases hfull : i ≥ L.length / 4 * 4
  · -- index in the trailing (possibly partial) unit
    have hr : L.length % 4 ≠ 0 := by omega
    have hiq : i / 4 = L.length / 4 := by omega
    have hglen : ((L.drop (4 * (i / 4))).take 4).length = L.length % 4 := by
      simp only [List.length_take, List.length_drop]
      omega
    rw [if_pos hfull]
    have hsh : L.length - i - 1 = ((L.drop (4 * (i / 4))).take 4).length - (i % 4) - 1 := by
      rw [hglen]; omega
    rw [hsh, digit_last _ (by rw [hglen]; omega) _ (by rw [hglen]; omega),
      getD_drop_take _ _ _ (by omega) ]
    have hix : 4 * (i / 4) + i % 4 = i := by omega
    rw [hix]
    generalize L.getD i Nuc.A = x
    cases x <;> rfl
  · -- index in a full interior unit
    have hglen : ((L.drop (4 * (i / 4))).take 4).length = 4 := by
      simp only [List.length_take, List.length_drop]
      omega
    rw [if_neg hfull, digit_full _ hglen _ (by omega),
      getD_drop_take _ _ _ (by omega)]
    have hix : 4 * (i / 4) + i % 4 = i := by omega
    rw [hix]
    generalize L.getD i Nuc.A = x
    cases x <;> rfl

/-! ### Relating `from_str` to `from_iter` -/

/-- The `from_str` loop on the uppercased characters is the `from_iter` loop
on the converted nucleotides; it fails exactly when the character conversion
fails, carrying the uppercased first offending character. -/
lemma fromStrLoop_eq_parseNucs (s : List Char) :
    ∀ st : PackState,
      fromStrLoop (s.map toAsciiUpper) st =
        match parseNucs s with
        | .ok L => .ok (fromIterLoop L st)
        | .error e => .error (toAsciiUpper e) := by
  induction s with
  | nil => intro st; simp [fromStrLoop, parseNucs, fromIterLoop]
  | cons c rest ih =>
    intro st
    by_cases h1 : toAsciiUpper c = 'A'
    · have htf : Nuc.tryFrom c = .ok .A := by simp [Nuc.tryFrom, h1]
      simp only [List.map_cons, h1, fromStrLoop, if_pos rfl, parseNucs, htf]
      rw [ih]
      cases hp : parseNucs rest <;> simp [hp, fromIterLoop, iterStep]
    · by_cases h2 : toAsciiUpper c = 'C'
      · have htf : Nuc.tryFrom c = .ok .C := by simp [Nuc.tryFrom, h1, h2]
        simp only [List.map_cons, h2, fromStrLoop, parseNucs, htf]
        rw [if_neg (show ¬(('C' : Char) = 'A') by decide), ih]
        cases hp : parseNucs rest <;> simp [hp, fromIterLoop, iterStep]
      · by_cases h3 : toAsciiUpper c = 'G'
        · have htf : Nuc.tryFrom c = .ok .G := by simp [Nuc.tryFrom, h1, h2, h3]
          simp only [List.map_cons, h3, fromStrLoop, parseNucs, htf]
          rw [if_neg (show ¬(('G' : Char) = 'A') by decide),
            if_neg (show ¬(('G' : Char) = 'C') by decide), ih]
          cases hp : parseNucs rest <;> simp [hp, fromIterLoop, iterStep]
        · by_cases h4 : toAsciiUpper c = 'T'
          · have htf : Nuc.tryFrom c = .ok .T := by simp [Nuc.tryFrom, h1, h2, h3, h4]
            simp only [List.map_cons, h4, fromStrLoop, parseNucs, htf]
            rw [if_neg (show ¬(('T' : Char) = 'A') by decide),
              if_neg (show ¬(('T' : Char) = 'C') by decide),
              if_neg (show ¬(('T' : Char) = 'G') by decide), ih]
            cases hp : parseNucs rest <;> simp [hp, fromIterLoop, iterStep]
          · have htf : Nuc.tryFrom c = .error c := by simp [Nuc.tryFrom, h1, h2, h3, h4]
            simp only [List.map_cons, fromStrLoop, parseNucs, htf, if_neg h1, if_neg h2,
              if_neg h3, if_neg h4]

/-- `from_str` is character conversion followed by `from_iter`: it succeeds
with `from_iter` of the converted nucleotides, or fails with the uppercased
first character that does not convert. -/
lemma fromStr_eq_parseNucs (s : List Char) :
    PackedDna.fromStr s =
      match parseNucs s with
      | .ok L => .ok (PackedDna.fromIter L)
      | .error e => .error (toAsciiUpper e) := by
  unfold PackedDna.fromStr PackedDna.fromIter
  rw [fromStrLoop_eq_parseNucs]
  cases hp : parseNucs s with
  | error e => rfl
  | ok L =>
    dsimp only
    by_cases h0 : (fromIterLoop L initState).len ≠ 0
    · rw [if_pos h0, if_pos h0]
    · rw [if_neg h0, if_neg h0]

/-- `Nuc::try_from` fails, echoing the input character, on every character
outside the eight accepted letters. -/
lemma tryFrom_error (c : Char) (h : c ∉ validChars) : Nuc.tryFrom c = .error c := by
  have hA : ¬toAsciiUpper c = 'A' := by
    rw [toAsciiUpper_eq_letter_iff c 'A' 'a' (by decide) (by decide) (by decide)]
    rintro (rfl | rfl) <;> simp [validChars] at h
  have hC : ¬toAsciiUpper c = 'C' := by
    rw [toAsciiUpper_eq_letter_iff c 'C' 'c' (by decide) (by decide) (by decide)]
    rintro (rfl | rfl) <;> simp [validChars] at h
  have hG : ¬toAsciiUpper c = 'G' := by
    rw [toAsciiUpper_eq_letter_iff c 'G' 'g' (by decide) (by decide) (by decide)]
    rintro (rfl | rfl) <;> simp [validChars] at h
  have hT : ¬toAsciiUpper c = 'T' := by
    rw [toAsciiUpper_eq_letter_iff c 'T' 't' (by decide) (by decide) (by decide)]
    rintro (rfl | rfl) <;> simp [validChars] at h
  simp [Nuc.tryFrom, hA, hC, hG, hT]

/-- `Nuc::try_from` succeeds exactly on the eight accepted letters. -/
lemma tryFrom_isOk_iff (c : Char) : (∃ n, Nuc.tryFrom c = .ok n) ↔ c ∈ validChars := by
  constructor
  · rintro ⟨n, hn⟩
    by_contra hc
    rw [tryFrom_error c hc] at hn
    cases hn
  · intro h
    simp only [validChars, List.mem_cons, List.not_mem_nil, or_false] at h
    rcases h with rfl | rfl | rfl | rfl | rfl | rfl | rfl | rfl <;>
      first
        | exact ⟨Nuc.A, rfl⟩
        | exact ⟨Nuc.C, rfl⟩
        | exact ⟨Nuc.G, rfl⟩
        | exact ⟨Nuc.T, rfl⟩

/-- When `Nuc::try_from` succeeds, the uppercased input is the letter of the
returned nucleotide. -/
lemma toChar_of_tryFrom (c : Char) (n : Nuc) (h : Nuc.tryFrom c = .ok n) :
    toAsciiUpper c = n.toChar := by
  by_cases h1 : toAsciiUpper c = 'A'
  · simp [Nuc.tryFrom, h1] at h
    subst h
    exact h1
  · by_cases h2 : toAsciiUpper c = 'C'
    · simp [Nuc.tryFrom, h1, h2] at h
      subst h
      exact h2
    · by_cases h3 : toAsciiUpper c = 'G'
      · simp [Nuc.tryFrom, h1, h2, h3] at h
        subst h
        exact h3
      · by_cases h4 : toAsciiUpper c = 'T'
        · simp [Nuc.tryFrom, h1, h2, h3, h4] at h
          subst h
          exact h4
        · simp [Nuc.tryFrom, h1, h2, h3, h4] at h

/-- Successful conversion preserves the character count. -/
lemma parseNucs_length (s : List Char) (L : List Nuc) (h : parseNucs s = .ok L) :
    L.length = s.length := by
  induction s generalizing L with
  | nil =>
    simp only [parseNucs, Except.ok.injEq] at h
    subst h
    rfl
  | cons c rest ih =>
    simp only [parseNucs] at h
    cases htf : Nuc.tryFrom c with
    | error e => rw [htf] at h; cases h
    | ok n =>
      rw [htf] at h
      cases hp : parseNucs rest with
      | error e => rw [hp] at h; cases h
      | ok L2 =>
        rw [hp] at h
        cases h
        simp [List.length_cons, ih L2 hp]

/-- Successful conversion, mapped back to characters, gives the uppercased
input. -/
lemma parseNucs_toChar (s : List Char) (L : List Nuc) (h : parseNucs s = .ok L) :
    L.map Nuc.toChar = s.map toAsciiUpper := by
  induction s generalizing L with
  | nil =>
    simp only [parseNucs, Except.ok.injEq] at h
    subst h
    rfl
  | cons c rest ih =>
    simp only [parseNucs] at h
    cases htf : Nuc.tryFrom c with
    | error e => rw [htf] at h; cases h
    | ok n =>
      rw [htf] at h
      cases hp : parseNucs rest with
      | error e => rw [hp] at h; cases h
      | ok L2 =>
        rw [hp] at h
        cases h
        simp only [List.map_cons, ih L2 hp, toChar_of_tryFrom c n htf]

/-- Conversion of a whole string succeeds exactly when every character is one
of the eight accepted letters. -/
lemma parseNucs_isOk_iff (s : List Char) :
    (∃ L, parseNucs s = .ok L) ↔ ∀ c ∈ s, c ∈ validChars := by
  induction s with
  | nil => simp [parseNucs]
  | cons c rest ih =>
    constructor
    · rintro ⟨L, hL⟩
      simp only [parseNucs] at hL
      cases htf : Nuc.tryFrom c with
      | error e => rw [htf] at hL; cases hL
      | ok n =>
        rw [htf] at hL
        cases hp : parseNucs rest with
        | error e => rw [hp] at hL; cases hL
        | ok L2 =>
          intro x hx
          rcases List.mem_cons.mp hx with rfl | hx2
          · exact (tryFrom_isOk_iff x).mp ⟨n, htf⟩
          · exact (ih.mp ⟨L2, hp⟩) x hx2
    · intro hall
      obtain ⟨n, hn⟩ := (tryFrom_isOk_iff c).mpr (hall c (List.mem_cons_self c rest))
      obtain ⟨L2, hL2⟩ := ih.mpr (fun x hx => hall x (List.mem_cons_of_mem c hx))
      refine ⟨n :: L2, ?_⟩
      simp only [parseNucs, hn, hL2]

/-- Conversion stops at the first bad character: with a valid prefix and an
invalid character next, the error carries that character (as written). -/
lemma parseNucs_error_first (pre : List Char) (c : Char) (suf : List Char)
    (hpre : ∀ x ∈ pre, x ∈ validChars) (hc : c ∉ validChars) :
    parseNucs (pre ++ c :: suf) = .error c := by
  induction pre with
  | nil =>
    simp only [List.nil_append, parseNucs, tryFrom_error c hc]
  | cons p rest ih =>
    obtain ⟨n, hn⟩ := (tryFrom_isOk_iff p).mpr (hpre p (List.mem_cons_self p rest))
    simp only [List.cons_append, parseNucs, hn, List.append_eq]
    rw [ih (fun x hx => hpre x (List.mem_cons_of_mem p hx))]

/-- The error payload of `Nuc::try_from` is always the input character, and
an error implies the character is not an accepted letter. -/
lemma tryFrom_error_elim (c x : Char) (h : Nuc.tryFrom c = .error x) :
    x = c ∧ c ∉ validChars := by
  by_cases hv : c ∈ validChars
  · obtain ⟨n, hn⟩ := (tryFrom_isOk_iff c).mpr hv
    rw [hn] at h
    cases h
  · rw [tryFrom_error c hv] at h
    cases h
    exact ⟨rfl, hv⟩

/-- A conversion error identifies a character of the input that is not an
accepted letter. -/
lemma parseNucs_error_mem (s : List Char) (e : Char) (h : parseNucs s = .error e) :
    e ∈ s ∧ e ∉ validChars := by
  induction s with
  | nil => simp [parseNucs] at h
  | cons c rest ih =>
    simp only [parseNucs] at h
    cases htf : Nuc.tryFrom c with
    | error e2 =>
      rw [htf] at h
      simp only [Except.error.injEq] at h
      subst h
      obtain ⟨rfl, hinv⟩ := tryFrom_error_elim _ _ htf
      exact ⟨List.mem_cons_self _ _, hinv⟩
    | ok n =>
      rw [htf] at h
      cases hp : parseNucs rest with
      | error e2 =>
        rw [hp] at h
        simp only [Except.error.injEq] at h
        subst h
        obtain ⟨hm, hinv⟩ := ih hp
        exact ⟨List.mem_cons_of_mem c hm, hinv⟩
      | ok L2 => rw [hp] at h; cases h

/-- For a character outside the eight accepted letters, the uppercased form
is none of the four uppercase letters. -/
lemma not_valid_upper (c : Char) (h : c ∉ validChars) :
    toAsciiUpper c ≠ 'A' ∧ toAsciiUpper c ≠ 'C' ∧
    toAsciiUpper c ≠ 'G' ∧ toAsciiUpper c ≠ 'T' := by
  refine ⟨?_, ?_, ?_, ?_⟩
  · intro hx
    rw [toAsciiUpper_eq_letter_iff c 'A' 'a' (by decide) (by decide) (by decide)] at hx
    rcases hx with rfl | rfl <;> simp [validChars] at h
  · intro hx
    rw [toAsciiUpper_eq_letter_iff c 'C' 'c' (by decide) (by decide) (by decide)] at hx
    rcases hx with rfl | rfl <;> simp [validChars] at h
  · intro hx
    rw [toAsciiUpper_eq_letter_iff c 'G' 'g' (by decide) (by decide) (by decide)] at hx
    rcases hx with rfl | rfl <;> simp [validChars] at h
  · intro hx
    rw [toAsciiUpper_eq_letter_iff c 'T' 't' (by decide) (by decide) (by decide)] at hx
    rcases hx with rfl | rfl <;> simp [validChars] at h

/-- `Nuc::from_str` echoes the uppercased input as its error on every string
whose length is not 1. -/
lemma nucFromStr_wrong_length (s : List Char) (h : s.length ≠ 1) :
    Nuc.fromStr s = .error (s.map toAsciiUpper) := by
  have hne : ∀ x : Char, s.map toAsciiUpper ≠ [x] := by
    intro x hx
    apply h
    have hlen := congrArg List.length hx
    simpa using hlen
  simp [Nuc.fromStr, hne 'A', hne 'C', hne 'G', hne 'T']

/-- `Nuc::from_str` fails on the one-character string of a character outside
the eight accepted letters. -/
lemma nucFromStr_invalid (c : Char) (h : c ∉ validChars) :
    Nuc.fromStr [c] = .error [toAsciiUpper c] := by
  obtain ⟨hA, hC, hG, hT⟩ := not_valid_upper c h
  have hne : ∀ x : Char, toAsciiUpper c ≠ x → ([toAsciiUpper c] : List Char) ≠ [x] := by
    intro x hx hc2
    exact hx (by injection hc2)
  simp [Nuc.fromStr, hne _ hA, hne _ hC, hne _ hG, hne _ hT]

/-- When `Nuc::try_from` accepts a character, `Nuc::from_str` accepts the
one-character string with the same result. -/
lemma nucFromStr_single (c : Char) (n : Nuc) (h : Nuc.tryFrom c = .ok n) :
    Nuc.fromStr [c] = .ok n := by
  have hu := toChar_of_tryFrom c n h
  cases n <;> simp [Nuc.fromStr, Nuc.toChar, hu] at *

/-! ### The claims -/

/-- Claim C1: for every text accepted by `PackedDna::from_str` (exactly the
strings of A/C/G/T letters in any mix of case, by claim C6), reading every
index in `[0, len)` of the result with `get` and mapping each returned `Nuc`
back to its character reproduces the input converted to uppercase — decoding
is a left inverse of parsing, at indices inside a trailing partial storage
unit as well as when the length is an exact multiple of 4 (both index
regimes are exercised by the `get` branches covered in `get_fromIter`). -/
theorem claim_C1_roundtrip (s : List Char) (d : PackedDna)
    (h : PackedDna.fromStr s = .ok d) :
    decodeDna d = s.map toAsciiUpper := by
  rw [fromStr_eq_parseNucs] at h
  cases hp : parseNucs s with
  | error e => rw [hp] at h; cases h
  | ok L =>
    rw [hp] at h
    cases h
    rw [← parseNucs_toChar s L hp]
    obtain ⟨hlen, hvlen, hdig⟩ := fromIter_spec L
    unfold decodeDna
    have hdlen : (PackedDna.fromIter L).len = L.length := hlen
    rw [hdlen]
    apply List.ext_getElem
    · simp
    · intro i h1 h2
      simp only [List.getElem_map, List.getElem_range]
      have hi : i < L.length := by simpa using h1
      rw [get_fromIter L i hi]
      simp only [List.getD_eq_getElem L Nuc.A hi]

/-- Witness for C1 at the 9-character input of the repository's own test. -/
theorem claim_C1_roundtrip_witness :
    decodeDna ⟨[57, 167, 0], 9⟩ = "ATGCGGCTA".data.map toAsciiUpper :=
  claim_C1_roundtrip "ATGCGGCTA".data ⟨[57, 167, 0], 9⟩ rfl

/-- Claim C2: `PackedDna::is_empty` returns `true` exactly when the length is
nonzero — the polarity is inverted relative to the conventional meaning, as
the source computes `self.length != 0`; in particular on the result of
`from_str("")` it returns `false`. -/
theorem claim_C2_is_empty_inverted :
    (∀ d : PackedDna, d.is_empty = true ↔ d.len ≠ 0) ∧
    (∃ d, PackedDna.fromStr [] = .ok d ∧ d.is_empty = false) := by
  constructor
  · intro d
    simp [PackedDna.is_empty, PackedDna.len]
  · exact ⟨⟨[], 0⟩, rfl, rfl⟩

/-- Claim C3: for a `PackedDna` produced by either constructor, the
storage-unit vector returned by `vec` has exactly `⌈len / 4⌉` elements —
written `(len + 3) / 4` in natural-number division, which is `ceil(len/4)`
for `len > 0` and `0` for `len = 0` — and the logical length never exceeds
4 times the number of storage units. -/
theorem claim_C3_unit_count :
    (∀ L : List Nuc,
      ((PackedDna.fromIter L).vec).length = ((PackedDna.fromIter L).len + 3) / 4 ∧
      (PackedDna.fromIter L).len ≤ 4 * ((PackedDna.fromIter L).vec).length) ∧
    (∀ (s : List Char) (d : PackedDna), PackedDna.fromStr s = .ok d →
      (d.vec).length = (d.len + 3) / 4 ∧ d.len ≤ 4 * (d.vec).length) := by
  have hiter : ∀ L : List Nuc,
      ((PackedDna.fromIter L).vec).length = ((PackedDna.fromIter L).len + 3) / 4 ∧
      (PackedDna.fromIter L).len ≤ 4 * ((PackedDna.fromIter L).vec).length := by
    intro L
    obtain ⟨hlen, hvlen, -⟩ := fromIter_spec L
    rw [vec_eq_nucs_vec]
    have hl : (PackedDna.fromIter L).len = L.length := hlen
    rw [hl, hvlen]
    omega
  refine ⟨hiter, ?_⟩
  intro s d h
  rw [fromStr_eq_parseNucs] at h
  cases hp : parseNucs s with
  | error e => rw [hp] at h; cases h
  | ok L =>
    rw [hp] at h
    cases h
    exact hiter L

/-- Claim C4: on a `PackedDna` built by either constructor, `get` fails with
an error carrying exactly the requested index whenever the index is at least
the logical length (so on every index of an empty sequence), and succeeds
with some nucleotide on every smaller index; in that case the storage unit
it reads, at position `index / 4`, lies inside the vector (so the `u8`
indexing cannot panic), and the catch-all decode-failure arm is never taken.
`get` takes `&self` and the embedding is a pure function, so the sequence is
unchanged by construction. -/
theorem claim_C4_get_bounds (s : List Char) (L : List Nuc) (d : PackedDna)
    (h : d = PackedDna.fromIter L ∨ PackedDna.fromStr s = .ok d) (i : Nat) :
    (i ≥ d.len → d.get i = .error i) ∧
    (i < d.len → i / 4 < (d.vec).length ∧ ∃ n, d.get i = .ok n) := by
  have herr : i ≥ d.len → d.get i = .error i := by
    intro hge
    have hge2 : i ≥ d.length := hge
    unfold PackedDna.get
    rw [if_pos hge2]
  have hiter : ∀ M : List Nuc, i < (PackedDna.fromIter M).len →
      i / 4 < ((PackedDna.fromIter M).vec).length ∧
      ∃ n, (PackedDna.fromIter M).get i = .ok n := by
    intro M hlt
    obtain ⟨hlen, hvlen, -⟩ := fromIter_spec M
    have hl : (PackedDna.fromIter M).len = M.length := hlen
    rw [vec_eq_nucs_vec, hvlen]
    rw [hl] at hlt
    constructor
    · omega
    · exact ⟨M.getD i Nuc.A, get_fromIter M i hlt⟩
  rcases h with rfl | hstr
  · exact ⟨herr, hiter L⟩
  · refine ⟨herr, ?_⟩
    rw [fromStr_eq_parseNucs] at hstr
    cases hp : parseNucs s with
    | error e => rw [hp] at hstr; cases hstr
    | ok L2 =>
      rw [hp] at hstr
      cases hstr
      exact hiter L2

/-- Witness for C4 on the sequence built from a single A, at index 0. -/
theorem claim_C4_get_bounds_witness :
    (0 ≥ (PackedDna.fromIter [Nuc.A]).len →
      (PackedDna.fromIter [Nuc.A]).get 0 = .error 0) ∧
    (0 < (PackedDna.fromIter [Nuc.A]).len →
      0 / 4 < ((PackedDna.fromIter [Nuc.A]).vec).length ∧
      ∃ n, (PackedDna.fromIter [Nuc.A]).get 0 = .ok n) :=
  claim_C4_get_bounds [] [Nuc.A] (PackedDna.fromIter [Nuc.A]) (Or.inl rfl) 0

/-- Claim C5: the concrete vectors of the repository's tests — `from_str`
on "ATCG" gives one storage unit of value 54 and length 4; on "atcgGGACgact"
storage units `[54, 161, 135]` and length 12; on "" length 0 and no storage
units; on "ABCg" a parse error (carrying 'B'); and on "ATGCGGCTA", `get 4`
is G, `get 8` is A, and `get 9` fails with an index error carrying 9. -/
theorem claim_C5_concrete_vectors :
    PackedDna.fromStr "ATCG".data = .ok ⟨[54], 4⟩ ∧
    (PackedDna.fromStr "ATCG".data).map PackedDna.vec = .ok [54] ∧
    (PackedDna.fromStr "ATCG".data).map PackedDna.len = .ok 4 ∧
    PackedDna.fromStr "atcgGGACgact".data = .ok ⟨[54, 161, 135], 12⟩ ∧
    (PackedDna.fromStr "atcgGGACgact".data).map PackedDna.vec = .ok [54, 161, 135] ∧
    PackedDna.fromStr "".data = .ok ⟨[], 0⟩ ∧
    PackedDna.fromStr "ABCg".data = .error 'B' ∧
    (PackedDna.fromStr "ATGCGGCTA".data).map (fun d => d.get 4) = .ok (.ok Nuc.G) ∧
    (PackedDna.fromStr "ATGCGGCTA".data).map (fun d => d.get 8) = .ok (.ok Nuc.A) ∧
    (PackedDna.fromStr "ATGCGGCTA".data).map (fun d => d.get 9) = .ok (.error 9) :=
  ⟨rfl, rfl, rfl, rfl, rfl, rfl, rfl, rfl, rfl, rfl⟩

/-- Claim C6: `PackedDna::from_str` succeeds exactly when every character of
the input is one of A, C, G, T, a, c, g, t; on success the logical length is
the character count (in particular the empty string gives length 0 and no
storage units); on failure the error carries the first offending character
in its uppercased form (the parser uppercases before matching), which
identifies the offending character up to the parser's case-insensitivity. -/
theorem claim_C6_parse_domain (s : List Char) :
    ((∃ d, PackedDna.fromStr s = .ok d) ↔ ∀ c ∈ s, c ∈ validChars) ∧
    (∀ d, PackedDna.fromStr s = .ok d → d.len = s.length) ∧
    PackedDna.fromStr [] = .ok ⟨[], 0⟩ ∧
    (∀ e, PackedDna.fromStr s = .error e →
      ∃ c ∈ s, toAsciiUpper c = e ∧ c ∉ validChars) := by
  refine ⟨?_, ?_, rfl, ?_⟩
  · rw [← parseNucs_isOk_iff]
    rw [fromStr_eq_parseNucs]
    constructor
    · rintro ⟨d, hd⟩
      cases hp : parseNucs s with
      | error e => rw [hp] at hd; cases hd
      | ok L => exact ⟨L, rfl⟩
    · rintro ⟨L, hL⟩
      rw [hL]
      exact ⟨PackedDna.fromIter L, rfl⟩
  · intro d hd
    rw [fromStr_eq_parseNucs] at hd
    cases hp : parseNucs s with
    | error e => rw [hp] at hd; cases hd
    | ok L =>
      rw [hp] at hd
      cases hd
      obtain ⟨hlen, -, -⟩ := fromIter_spec L
      have hl : (PackedDna.fromIter L).len = L.length := hlen
      rw [hl, parseNucs_length s L hp]
  · intro e he
    rw [fromStr_eq_parseNucs] at he
    cases hp : parseNucs s with
    | ok L => rw [hp] at he; cases he
    | error e2 =>
      rw [hp] at he
      simp only [Except.error.injEq] at he
      subst he
      obtain ⟨hm, hinv⟩ := parseNucs_error_mem s e2 hp
      exact ⟨e2, hm, rfl, hinv⟩

/-- Claim C7: `PackedDna::from_iter` is total — in the embedding it returns a
`PackedDna` outright, with no error component in its type — and `from_str`
refines it: whenever every character of the text converts to a nucleotide
(`parseNucs`, the per-character `Nuc::try_from` map), `from_str` returns
exactly `from_iter` of those nucleotides, the same storage units and the
same logical length. -/
theorem claim_C7_refinement (s : List Char) (L : List Nuc)
    (h : parseNucs s = .ok L) :
    PackedDna.fromStr s = .ok (PackedDna.fromIter L) := by
  rw [fromStr_eq_parseNucs, h]

/-- Witness for C7 on the mixed-case text "AcGt". -/
theorem claim_C7_refinement_witness :
    PackedDna.fromStr "AcGt".data = .ok (PackedDna.fromIter [Nuc.A, Nuc.C, Nuc.G, Nuc.T]) :=
  claim_C7_refinement "AcGt".data [Nuc.A, Nuc.C, Nuc.G, Nuc.T] rfl

/-- Claim C8: case invariance — `from_str` on a text and on its uppercased
form produce identical results (storage units and logical length alike).
Proved for every text, valid or not, since the parser begins by uppercasing
and ASCII uppercasing is idempotent; the claim's restriction to valid text
is subsumed. -/
theorem claim_C8_case_invariance (s : List Char) :
    PackedDna.fromStr s = PackedDna.fromStr (s.map toAsciiUpper) := by
  unfold PackedDna.fromStr
  rw [List.map_map]
  have hmap : s.map (toAsciiUpper ∘ toAsciiUpper) = s.map toAsciiUpper := by
    simp only [Function.comp_def, toAsciiUpper_idem]
  rw [hmap]

/-- Claim C9: `Nuc::try_from` succeeds exactly on the eight characters
A, C, G, T, a, c, g, t, returning the corresponding nucleotide, and fails
with an error carrying the character itself otherwise; `Nuc::from_str`
succeeds exactly on the one-character strings over those letters (agreeing
with `try_from` there), and fails on every other string — in particular on
the empty string and on any string whose length is not 1. -/
theorem claim_C9_nuc_parsing :
    (Nuc.tryFrom 'A' = .ok Nuc.A ∧ Nuc.tryFrom 'a' = .ok Nuc.A ∧
     Nuc.tryFrom 'C' = .ok Nuc.C ∧ Nuc.tryFrom 'c' = .ok Nuc.C ∧
     Nuc.tryFrom 'G' = .ok Nuc.G ∧ Nuc.tryFrom 'g' = .ok Nuc.G ∧
     Nuc.tryFrom 'T' = .ok Nuc.T ∧ Nuc.tryFrom 't' = .ok Nuc.T) ∧
    (∀ c, c ∉ validChars → Nuc.tryFrom c = .error c) ∧
    (∀ c n, Nuc.tryFrom c = .ok n → Nuc.fromStr [c] = .ok n) ∧
    (∀ c, c ∉ validChars → Nuc.fromStr [c] = .error [toAsciiUpper c]) ∧
    (∀ s : List Char, s.length ≠ 1 → Nuc.fromStr s = .error (s.map toAsciiUpper)) := by
  refine ⟨⟨rfl, rfl, rfl, rfl, rfl, rfl, rfl, rfl⟩, tryFrom_error, nucFromStr_single,
    nucFromStr_invalid, nucFromStr_wrong_length⟩

/-- Claim C10: when `from_str` fails, the error payload is the first invalid
character of the input after ASCII-uppercase normalization — parsing stops
at the first offending character in order, and a lowercase invalid letter is
reported uppercased. -/
theorem claim_C10_error_uppercased (pre : List Char) (c : Char) (suf : List Char)
    (hpre : ∀ x ∈ pre, x ∈ validChars) (hc : c ∉ validChars) :
    PackedDna.fromStr (pre ++ c :: suf) = .error (toAsciiUpper c) := by
  rw [fromStr_eq_parseNucs, parseNucs_error_first pre c suf hpre hc]

/-- Witness for C10 on the claim's own example "xA": the payload is 'X', not
the 'x' as originally written. -/
theorem claim_C10_error_uppercased_witness :
    PackedDna.fromStr "xA".data = .error 'X' :=
  claim_C10_error_uppercased [] 'x' ['A'] (by simp) (by decide)
